import Mathlib

/-!
Verification development for the NDW shapefile gap-closing tool (`src/main.py`).

The program repairs gaps in a network of 2D polylines: it classifies lines
into a `no_successor` pool (end point matches no line's begin point) and a
`no_predecessor` pool (begin point matches no line's end point), then
iteratively synthesizes straight connector segments from the end point of the
nearest `no_successor` line to the begin point of each `no_predecessor` line,
filters them by bearing alignment, and removes matched lines from the pools
until a round yields fewer than 5 new connectors.

Shallow embedding conventions:
* Coordinates are exact numbers (`ℚ`); bearings are real numbers computed by
  an exact `atan2` over `ℝ` (Python's `math.atan2`/`math.degrees`).
* Fallible operations (pandas `.loc`/indexing, shapely boundary indexing,
  sklearn `fit`/`kneighbors` validation errors) are modeled with `Option`;
  an exception anywhere aborts the whole run, which `main` surfaces as
  `Except.error`.
* Whole-program iteration is modeled with an explicit fuel parameter plus a
  distinguished `Err.fuel` outcome; a theorem shows the fuel bound used by
  `main` is never exhausted, which is the termination statement.
-/

namespace NDW

/-- A 2D coordinate, as read from the shapefile.  The source manipulates
IEEE doubles; we embed the coordinate values as exact rationals. -/
abbrev Point := ℚ × ℚ

/-- A line feature: stable identifier (the `id` column, which `read_shp`
makes the index) and an ordered list of coordinates (the polyline). -/
structure Line where
  id : ℕ
  coords : List Point
deriving DecidableEq

/-- List of ids of a pool (the pandas index of the pool's frame). -/
def ids (pool : List Line) : List ℕ := pool.map (·.id)

/-- Structurally recursive `Option`-valued map: compute `f` on every element
left to right, aborting at the first failure.  This models a pandas/Python
elementwise computation in which any raised exception kills the run. -/
def omap (f : α → Option β) : List α → Option (List β)
  | [] => some []
  | a :: as => do
    let b ← f a
    let bs ← omap f as
    pure (b :: bs)

/-- Shapely `geometry.boundary` of a polyline: the multipoint of its two
exterior points, empty when the line is degenerate (fewer than 2
coordinates: no valid LineString) or closed (first = last coordinate). -/
def boundary (l : Line) : List Point :=
  match l.coords with
  | a :: b :: rest =>
    let last := (b :: rest).getLast (List.cons_ne_nil _ _)
    if a = last then [] else [a, last]
  | _ => []

/-- `get_begin(points) = points[0]`: first exterior point; Python raises
`IndexError` when the boundary is empty, modeled as `none`. -/
def get_begin (points : List Point) : Option Point := points.get? 0

/-- `get_end(points) = points[1]`: second exterior point, `none` on
out-of-range (Python `IndexError`). -/
def get_end (points : List Point) : Option Point := points.get? 1

/-- The begin/end points computed for each row of the frame by `get_lines`
(`df['b_point']`, `df['e_point']`); fails if any line has an empty
boundary. -/
def linesBE (df : List Line) : Option (List (Line × Point × Point)) :=
  omap (fun l => do
    let b ← get_begin (boundary l)
    let e ← get_end (boundary l)
    pure (l, b, e)) df

/-- `get_lines(df)`: the pair `(lines_no_end, lines_no_begin)`.
`lines_no_end` keeps the rows whose end point is in no row's begin-point
column; `lines_no_begin` keeps the rows whose begin point is in no row's
end-point column.  Membership is exact coordinate equality over the whole
frame (a row is compared against every row, itself included). -/
def get_lines (df : List Line) : Option (List Line × List Line) := do
  let lbe ← linesBE df
  let bpoints : List Point := lbe.map (fun x => x.2.1)
  let epoints : List Point := lbe.map (fun x => x.2.2)
  let lines_no_end := (lbe.filter (fun x => decide (x.2.2 ∉ bpoints))).map (·.1)
  let lines_no_begin := (lbe.filter (fun x => decide (x.2.1 ∉ epoints))).map (·.1)
  pure (lines_no_end, lines_no_begin)

/-- Squared Euclidean distance in planar coordinates, the order used by
sklearn's `NearestNeighbors` (it ranks by Euclidean distance; squaring is
monotone so ranking by `sqDist` is the same ranking). -/
def sqDist (p q : Point) : ℚ := (p.1 - q.1) ^ 2 + (p.2 - q.2) ^ 2

/-- Element of a point list at position `i` (positions out of range never
arise in the uses below). -/
def nth (l : List Point) (i : ℕ) : Point := l.getD i (0, 0)

/-- Comparison used to rank training points for one query `q`: smaller
squared distance first.  sklearn does not document its ordering of exact
distance ties, so the model fixes them by smaller position; no claim
depends on the tie order of the neighbor query itself. -/
def distLe (train : List Point) (q : Point) (i j : ℕ) : Prop :=
  sqDist (nth train i) q < sqDist (nth train j) q ∨
    (sqDist (nth train i) q = sqDist (nth train j) q ∧ i ≤ j)

instance (train : List Point) (q : Point) : DecidableRel (distLe train q) := fun i j => by
  unfold distLe; infer_instance

instance (train : List Point) (q : Point) : IsTotal ℕ (distLe train q) := by
  constructor
  intro i j
  unfold distLe
  rcases lt_trichotomy (sqDist (nth train i) q) (sqDist (nth train j) q) with h | h | h
  · exact Or.inl (Or.inl h)
  · rcases Nat.le_total i j with hij | hij
    · exact Or.inl (Or.inr ⟨h, hij⟩)
    · exact Or.inr (Or.inr ⟨h.symm, hij⟩)
  · exact Or.inr (Or.inl h)

instance (train : List Point) (q : Point) : IsTrans ℕ (distLe train q) := by
  constructor
  intro i j k hij hjk
  unfold distLe at *
  rcases hij with h1 | ⟨h1, h1n⟩ <;> rcases hjk with h2 | ⟨h2, h2n⟩
  · exact Or.inl (h1.trans h2)
  · exact Or.inl (h2 ▸ h1)
  · exact Or.inl (h1 ▸ h2)
  · exact Or.inr ⟨h1.trans h2, h1n.trans h2n⟩

/-- Positions of all training points, ranked nearest-first for the query
`q` (sklearn's per-query neighbor ranking). -/
def sortIdx (train : List Point) (q : Point) : List ℕ :=
  List.insertionSort (distLe train q) (List.range train.length)

/-- `calculate_neighbors`'s core: `NearestNeighbors(n_neighbors=k).fit(train)`
then `kneighbors(queries)`, returning for each query the positions of its
`k` nearest training points, nearest first.  sklearn raises when the
training set is empty (`fit` rejects 0 samples), when the query array is
empty (it is 1-D, not the expected 2-D), and when `k` exceeds the number of
training samples; those are `none`. -/
def kneighbors (train : List Point) (queries : List Point) (k : ℕ) : Option (List (List ℕ)) :=
  if train.length = 0 then none
  else if queries.length = 0 then none
  else if train.length < k then none
  else some (queries.map (fun q => (sortIdx train q).take k))

/-- A connector candidate row of `artificial_lines`: `e_idx` (id of the
source `no_successor` line), `b_idx` (id of the destination
`no_predecessor` line), and the straight 2-point geometry. -/
structure Art where
  e : ℕ
  b : ℕ
  geom : List Point
deriving DecidableEq

/-- Sort order of `artificial_lines.sort_index()`: ascending by the
`(e_idx, b_idx)` multi-index. -/
def artLe (x y : Art) : Prop := x.e < y.e ∨ (x.e = y.e ∧ x.b ≤ y.b)

instance : DecidableRel artLe := fun x y => by
  unfold artLe; infer_instance

instance : IsTotal Art artLe := by
  constructor
  intro a b
  unfold artLe
  omega

instance : IsTrans Art artLe := by
  constructor
  intro a b c
  unfold artLe
  omega

/-- `generate_artificial_lines`: one candidate per `no_predecessor` line,
paired with the id of its chosen target (`lines_no_begin['first']`).  Each
candidate's geometry is the 2-point segment from the target's end point to
the line's begin point, and the frame is indexed and sorted by
`(e_idx, b_idx)`.  The target lookup is pandas `.loc` on `lines_no_end`
(`KeyError`, hence `none`, if the id is absent). -/
def generate_artificial_lines (pairs : List (Line × ℕ)) (lines_no_end : List Line) :
    Option (List Art) := do
  let arts ← omap (fun lt => do
    let bp ← get_begin (boundary lt.1)
    let t ← lines_no_end.find? (fun l => decide (l.id = lt.2))
    let ep ← get_end (boundary t)
    pure { e := lt.2, b := lt.1.id, geom := [ep, bp] : Art }) pairs
  pure (List.insertionSort artLe arts)

/-- Exact-real `atan2`, the semantics of Python's `math.atan2` on exact
inputs (note `atan2 0 0 = 0`, as in Python). -/
noncomputable def atan2 (y x : ℝ) : ℝ :=
  if 0 < x then Real.arctan (y / x)
  else if x < 0 then
    (if 0 ≤ y then Real.arctan (y / x) + Real.pi else Real.arctan (y / x) - Real.pi)
  else (if 0 < y then Real.pi / 2 else if y < 0 then -(Real.pi / 2) else 0)

/-- `math.degrees`: radians to degrees. -/
noncomputable def degrees (θ : ℝ) : ℝ := θ * 180 / Real.pi

/-- `AngleBtw2Points`: bearing in degrees of the segment from `pa` to `pb`,
`degrees(atan2(dy, dx))`, with no normalization into `[0, 360)`. -/
noncomputable def AngleBtw2Points (pa pb : Point) : ℝ :=
  degrees (atan2 ((pb.2 : ℝ) - (pa.2 : ℝ)) ((pb.1 : ℝ) - (pa.1 : ℝ)))

/-- `coords[-2:]` followed by indexing `[0]` and `[1]`: the last two
coordinates of a polyline; `none` when there are fewer than two (Python
`IndexError`). -/
def last2 (ps : List Point) : Option (Point × Point) :=
  match ps.reverse with
  | b :: a :: _ => some (a, b)
  | _ => none

/-- `coords[:2]` followed by indexing `[0]` and `[1]`: the first two
coordinates; `none` when there are fewer than two. -/
def first2 (ps : List Point) : Option (Point × Point) :=
  match ps with
  | a :: b :: _ => some (a, b)
  | _ => none

/-- The two angle deltas computed in `calculate_cos`'s inner loop for one
candidate: `degree = |angle1 - angle2|` and `degree_art = |art_angle - angle2|`
where `angle1` is the bearing of the last segment of the source
(`lines_no_end.loc[e]`) line, `angle2` the bearing of the first segment of
the destination (`lines_no_begin.loc[b]`) line, and `art_angle` the bearing
of the candidate's own geometry. -/
noncomputable def candDegrees (lines_no_end lines_no_begin : List Line) (c : Art) :
    Option (ℝ × ℝ) := do
  let tl ← lines_no_end.find? (fun l => decide (l.id = c.e))
  let dl ← lines_no_begin.find? (fun l => decide (l.id = c.b))
  let line1 ← last2 tl.coords
  let line2 ← first2 dl.coords
  let art ← first2 c.geom
  let angle1 := AngleBtw2Points line1.1 line1.2
  let angle2 := AngleBtw2Points line2.1 line2.2
  let art_angle := AngleBtw2Points art.1 art.2
  pure (|angle1 - angle2|, |art_angle - angle2|)

/-- The running-minimum scan of `calculate_cos`'s inner loop.  The Python
code starts from `min_degree = np.inf`, so the first candidate always
replaces the initial state; afterwards a candidate replaces the current
minimum only when its `degree` is strictly smaller (`degree < min_degree`),
and `min_degree_art` is updated together with `min_degree`. -/
noncomputable def scanMin :
    Option (Art × ℝ × ℝ) → List (Art × ℝ × ℝ) → Option (Art × ℝ × ℝ)
  | acc, [] => acc
  | none, x :: xs => scanMin (some x) xs
  | some y, x :: xs => scanMin (if x.2.1 < y.2.1 then some x else some y) xs

/-- Per-group selection: compute both angle deltas of every candidate of the
group (aborting, like Python, if a lookup or indexing fails) and keep the
first candidate attaining the minimal `degree`. -/
noncomputable def selectGroup (lines_no_end lines_no_begin : List Line) (g : List Art) :
    Option (Art × ℝ × ℝ) := do
  let withDeg ← omap
    (fun c => (candDegrees lines_no_end lines_no_begin c).map (fun d => (c, d.1, d.2))) g
  scanMin none withDeg

/-- A row of `filtered_lines`: the selected candidate's ids, its recorded
angle deltas (`angle`, `angle_art`) and its geometry. -/
structure Row where
  e : ℕ
  b : ℕ
  angle : ℝ
  angle_art : ℝ
  geom : List Point

/-- The group keys of `artificial_lines.groupby(level=0)`: the distinct
`e_idx` values, in ascending order (pandas `groupby` sorts its keys). -/
def groupKeys (arts : List Art) : List ℕ :=
  List.insertionSort (· ≤ ·) (arts.map (·.e)).dedup

/-- The group of one key: the candidate rows whose `e_idx` equals `k`, in
frame order. -/
def groupOf (arts : List Art) (k : ℕ) : List Art :=
  arts.filter (fun a => decide (a.e = k))

/-- The rows appended to `filtered_lines` before thresholding: one row per
group, holding the selected candidate of that group.  (The subsequent
`sort_index()` is the identity here because the keys are produced in
ascending order, one row each.) -/
noncomputable def cosRows (lines_no_begin : List Line) (arts : List Art)
    (lines_no_end : List Line) : Option (List Row) :=
  omap (fun k =>
    (selectGroup lines_no_end lines_no_begin (groupOf arts k)).map
      (fun cd => { e := cd.1.e, b := cd.1.b, angle := cd.2.1, angle_art := cd.2.2,
                   geom := cd.1.geom : Row }))
    (groupKeys arts)

/-- The acceptance predicate of `calculate_cos`'s final filter:
`(angle < treshold) & ~same_begin_end & (angle_art < treshold)`. -/
def accept (treshold : ℝ) (r : Row) : Prop :=
  r.angle < treshold ∧ r.e ≠ r.b ∧ r.angle_art < treshold

noncomputable instance (treshold : ℝ) (r : Row) : Decidable (accept treshold r) := by
  unfold accept; infer_instance

/-- `calculate_cos`: select one candidate per group, then keep only the rows
passing the angle thresholds and the self-connection check.  (On an empty
candidate frame pandas would fail at `set_index`; that input is unreachable
from `main`, whose neighbor query already fails on an empty pool.) -/
noncomputable def calculate_cos (lines_no_begin : List Line) (arts : List Art)
    (lines_no_end : List Line) (treshold : ℝ) : Option (List Row) :=
  (cosRows lines_no_begin arts lines_no_end).map
    (fun rows => rows.filter (fun r => decide (accept treshold r)))

/-- Error outcomes of a run. -/
inductive Err where
  /-- An exception raised while computing `get_lines` (malformed geometry:
  a line with an empty shapely boundary). -/
  | badInput
  /-- An exception raised inside a round (sklearn validation error, pandas
  `KeyError`, or an `IndexError` on too-short geometry). -/
  | fault
  /-- Fuel exhaustion: a modeling artifact, proven unreachable for the fuel
  bound `main` uses. -/
  | fuel
deriving DecidableEq

/-- Result of the convergence loop: the accumulated accepted connectors and
the residual pools. -/
structure LoopResult where
  connectors : List Row
  no_end : List Line
  no_begin : List Line

/-- One round's candidate synthesis: compute the pools' exterior points,
run the 3-nearest-neighbors query, keep for every `no_predecessor` line the
rank-0 (nearest) result converted to an id (`indices[:, 0]` followed by
`convert_to_id`), and build the artificial lines. -/
def roundPrep (lines_no_end lines_no_begin : List Line) : Option (List Art) := do
  let eps ← omap (fun l => get_end (boundary l)) lines_no_end
  let bps ← omap (fun l => get_begin (boundary l)) lines_no_begin
  let idx ← kneighbors eps bps 3
  let firsts ← omap (fun r => do
    let i ← r.get? 0
    let l ← lines_no_end.get? i
    pure l.id) idx
  generate_artificial_lines (lines_no_begin.zip firsts) lines_no_end

/-- One full round: candidate search and synthesis, then the angular
filter. -/
noncomputable def roundCompute (lines_no_end lines_no_begin : List Line) (treshold : ℝ) :
    Option (List Row) := do
  let arts ← roundPrep lines_no_end lines_no_begin
  calculate_cos lines_no_begin arts lines_no_end treshold

/-- The `while 1` convergence loop of `main`: run a round, append its
accepted connectors to the accumulated result, drop every matched id from
both pools, stop when `abs(previous_result_length - len(result_lines)) < 5`,
else update `previous_result_length` and repeat.  `fuel` bounds the number
of rounds; `main` supplies enough fuel for the bound to be unreachable. -/
noncomputable def loop (treshold : ℝ) :
    ℕ → List Line → List Line → List Row → ℕ → Except Err LoopResult
  | 0, _, _, _, _ => .error .fuel
  | fuel + 1, lines_no_end, lines_no_begin, result, previous =>
    match roundCompute lines_no_end lines_no_begin treshold with
    | none => .error .fault
    | some filtered =>
      let result2 := result ++ filtered
      let ne2 := lines_no_end.filter (fun l => decide (l.id ∉ filtered.map (·.e)))
      let nb2 := lines_no_begin.filter (fun l => decide (l.id ∉ filtered.map (·.b)))
      if ((previous : ℤ) - (result2.length : ℤ)).natAbs < 5 then
        .ok { connectors := result2, no_end := ne2, no_begin := nb2 }
      else
        loop treshold fuel ne2 nb2 result2 result2.length

/-- `main` (its in-scope core): classify the lines once with `get_lines`,
then run the convergence loop starting from full pools, an empty
accumulated set, and `previous_result_length = 0`.  File I/O and the final
concatenation/attribute synthesis are boundary concerns and not modeled. -/
noncomputable def main (df : List Line) (treshold : ℝ) : Except Err LoopResult :=
  match get_lines df with
  | none => .error .badInput
  | some pools => loop treshold (pools.2.length + 1) pools.1 pools.2 [] 0

end NDW

namespace NDW

/-! ### Basic lemmas about the embedding's plumbing -/

theorem omap_eq_none {α β : Type _} (f : α → Option β) {l : List α} {a : α}
    (ha : a ∈ l) (hfa : f a = none) : omap f l = none := by
  induction l with
  | nil => cases ha
  | cons x xs ih =>
    rcases List.mem_cons.mp ha with h | h
    · subst h
      simp [omap, hfa]
    · cases hx : f x with
      | none => simp [omap, hx]
      | some b => simp [omap, hx, ih h]

theorem omap_forall₂ {α β : Type _} {f : α → Option β} :
    ∀ {l : List α} {m : List β}, omap f l = some m →
      List.Forall₂ (fun a b => f a = some b) l m := by
  intro l
  induction l with
  | nil =>
    intro m h
    simp [omap] at h
    subst h
    exact List.Forall₂.nil
  | cons x xs ih =>
    intro m h
    cases hx : f x with
    | none => simp [omap, hx] at h
    | some b =>
      cases hxs : omap f xs with
      | none => simp [omap, hx, hxs] at h
      | some bs =>
        simp [omap, hx, hxs] at h
        subst h
        exact List.Forall₂.cons hx (ih hxs)

theorem forall₂_omap {α β : Type _} {f : α → Option β} :
    ∀ {l : List α} {m : List β}, List.Forall₂ (fun a b => f a = some b) l m →
      omap f l = some m := by
  intro l
  induction l with
  | nil =>
    intro m h
    cases h
    rfl
  | cons x xs ih =>
    intro m h
    cases h with
    | cons hx hxs => simp [omap, hx, ih hxs]

theorem omap_length {α β : Type _} {f : α → Option β} {l : List α} {m : List β}
    (h : omap f l = some m) : m.length = l.length :=
  (List.Forall₂.length_eq (omap_forall₂ h)).symm

theorem forall₂_mem_right {α β : Type _} {R : α → β → Prop} {l : List α} {m : List β}
    (h : List.Forall₂ R l m) : ∀ {b : β}, b ∈ m → ∃ a ∈ l, R a b := by
  induction h with
  | nil => intro b hb; cases hb
  | cons hx _ ih =>
    intro b hb
    rcases List.mem_cons.mp hb with hb | hb
    · exact ⟨_, List.mem_cons_self _ _, hb ▸ hx⟩
    · rcases ih hb with ⟨a, ha, hr⟩
      exact ⟨a, List.mem_cons_of_mem _ ha, hr⟩

theorem omap_mem {α β : Type _} {f : α → Option β} {l : List α} {m : List β}
    (h : omap f l = some m) {b : β} (hb : b ∈ m) : ∃ a ∈ l, f a = some b :=
  forall₂_mem_right (omap_forall₂ h) hb

/-! ### Bearing evaluation lemmas -/

theorem atan2_zero_of_pos {x : ℝ} (hx : 0 < x) : atan2 0 x = 0 := by
  unfold atan2
  rw [if_pos hx]
  simp

theorem atan2_zero_of_neg {x : ℝ} (hx : x < 0) : atan2 0 x = Real.pi := by
  unfold atan2
  rw [if_neg (by linarith : ¬ (0:ℝ) < x), if_pos hx, if_pos le_rfl]
  simp

theorem atan2_zero_zero : atan2 0 0 = 0 := by
  unfold atan2
  norm_num

theorem degrees_zero : degrees 0 = 0 := by
  unfold degrees
  ring

theorem degrees_pi : degrees Real.pi = 180 := by
  unfold degrees
  field_simp

/-- Bearing of an eastbound horizontal segment is 0 degrees. -/
theorem angle_east {a b : Point} (hy : a.2 = b.2) (hx : a.1 < b.1) :
    AngleBtw2Points a b = 0 := by
  unfold AngleBtw2Points
  have h2 : ((b.2 : ℝ)) - ((a.2 : ℝ)) = 0 := by rw [hy]; ring
  have h1 : (0:ℝ) < ((b.1 : ℝ)) - ((a.1 : ℝ)) := by
    have := (Rat.cast_lt (K := ℝ)).mpr hx
    linarith
  rw [h2, atan2_zero_of_pos h1, degrees_zero]

/-- Bearing of a westbound horizontal segment is 180 degrees. -/
theorem angle_west {a b : Point} (hy : a.2 = b.2) (hx : b.1 < a.1) :
    AngleBtw2Points a b = 180 := by
  unfold AngleBtw2Points
  have h2 : ((b.2 : ℝ)) - ((a.2 : ℝ)) = 0 := by rw [hy]; ring
  have h1 : ((b.1 : ℝ)) - ((a.1 : ℝ)) < 0 := by
    have := (Rat.cast_lt (K := ℝ)).mpr hx
    linarith
  rw [h2, atan2_zero_of_neg h1, degrees_pi]

/-- Bearing of a zero-length segment: `atan2(0, 0) = 0`, hence 0 degrees
(Python's `math.atan2(0.0, 0.0)` is `0.0`; no exception is raised). -/
theorem angle_degenerate (a : Point) : AngleBtw2Points a a = 0 := by
  unfold AngleBtw2Points
  simp [atan2_zero_zero, degrees_zero]

/-! ### Round-level plumbing lemmas -/

theorem roundPrep_nil_left (lines_no_begin : List Line) :
    roundPrep [] lines_no_begin = none := by
  unfold roundPrep
  cases h : omap (fun l => get_begin (boundary l)) lines_no_begin with
  | none => simp [omap, h]
  | some bps => simp [omap, h, kneighbors]

theorem roundCompute_nil_left (lines_no_begin : List Line) (treshold : ℝ) :
    roundCompute [] lines_no_begin treshold = none := by
  simp [roundCompute, roundPrep_nil_left]

end NDW

namespace NDW

/-! ### More plumbing: existence versions and Forall₂ transfers -/

theorem omap_isSome {α β : Type _} {f : α → Option β} :
    ∀ {l : List α}, (∀ a ∈ l, ∃ b, f a = some b) → ∃ m, omap f l = some m := by
  intro l
  induction l with
  | nil => exact fun _ => ⟨[], rfl⟩
  | cons x xs ih =>
    intro h
    rcases h x (List.mem_cons_self _ _) with ⟨b, hb⟩
    rcases ih (fun a ha => h a (List.mem_cons_of_mem _ ha)) with ⟨m, hm⟩
    exact ⟨b :: m, by simp [omap, hb, hm]⟩

theorem forall₂_mem_left {α β : Type _} {R : α → β → Prop} {l : List α} {m : List β}
    (h : List.Forall₂ R l m) : ∀ {a : α}, a ∈ l → ∃ b ∈ m, R a b := by
  induction h with
  | nil => intro a ha; cases ha
  | cons hx _ ih =>
    intro a ha
    rcases List.mem_cons.mp ha with ha | ha
    · exact ⟨_, List.mem_cons_self _ _, ha ▸ hx⟩
    · rcases ih ha with ⟨b, hb, hr⟩
      exact ⟨b, List.mem_cons_of_mem _ hb, hr⟩

theorem forall₂_append_cons_inv {α β : Type _} {R : α → β → Prop} :
    ∀ {m₁ : List β} {l : List α} {z : β} {m₂ : List β},
      List.Forall₂ R l (m₁ ++ z :: m₂) →
      ∃ l₁ a l₂, l = l₁ ++ a :: l₂ ∧ List.Forall₂ R l₁ m₁ ∧ R a z ∧ List.Forall₂ R l₂ m₂ := by
  intro m₁
  induction m₁ with
  | nil =>
    intro l z m₂ h
    cases h with
    | cons hx hxs => exact ⟨[], _, _, rfl, List.Forall₂.nil, hx, hxs⟩
  | cons y ys ih =>
    intro l z m₂ h
    cases h with
    | cons hx hxs =>
      rcases ih hxs with ⟨l₁, a, l₂, heq, h₁, h₂, h₃⟩
      exact ⟨_ :: l₁, a, l₂, by simp [heq], List.Forall₂.cons hx h₁, h₂, h₃⟩

/-! ### The running-minimum scan: first strict minimum -/

theorem scanMin_from_some :
    ∀ {l : List (Art × ℝ × ℝ)} {y z : Art × ℝ × ℝ}, scanMin (some y) l = some z →
      (z = y ∧ ∀ x ∈ l, ¬ x.2.1 < z.2.1) ∨
      (∃ l₁ l₂, l = l₁ ++ z :: l₂ ∧ z.2.1 < y.2.1 ∧ (∀ x ∈ l₁, z.2.1 < x.2.1) ∧
        ∀ x ∈ l₂, ¬ x.2.1 < z.2.1) := by
  intro l
  induction l with
  | nil =>
    intro y z h
    simp [scanMin] at h
    exact Or.inl ⟨h.symm, by simp⟩
  | cons x xs ih =>
    intro y z h
    rw [scanMin] at h
    by_cases hc : x.2.1 < y.2.1
    · rw [if_pos hc] at h
      rcases ih h with ⟨hz, hall⟩ | ⟨l₁, l₂, heq, hzx, h₁, h₂⟩
      · subst hz
        exact Or.inr ⟨[], xs, rfl, hc, by simp, hall⟩
      · refine Or.inr ⟨x :: l₁, l₂, by simp [heq], hzx.trans hc, ?_, h₂⟩
        intro w hw
        rcases List.mem_cons.mp hw with hw | hw
        · exact hw ▸ hzx
        · exact h₁ w hw
    · rw [if_neg hc] at h
      rcases ih h with ⟨hz, hall⟩ | ⟨l₁, l₂, heq, hzy, h₁, h₂⟩
      · subst hz
        refine Or.inl ⟨rfl, ?_⟩
        intro w hw
        rcases List.mem_cons.mp hw with hw | hw
        · exact hw ▸ hc
        · exact hall w hw
      · refine Or.inr ⟨x :: l₁, l₂, by simp [heq], hzy, ?_, h₂⟩
        intro w hw
        rcases List.mem_cons.mp hw with hw | hw
        · exact hw ▸ (lt_of_lt_of_le hzy (not_lt.mp hc))
        · exact h₁ w hw

theorem scanMin_from_some_isSome :
    ∀ (l : List (Art × ℝ × ℝ)) (y : Art × ℝ × ℝ), ∃ z, scanMin (some y) l = some z := by
  intro l
  induction l with
  | nil => exact fun y => ⟨y, rfl⟩
  | cons x xs ih =>
    intro y
    rw [scanMin]
    by_cases hc : x.2.1 < y.2.1
    · rw [if_pos hc]; exact ih x
    · rw [if_neg hc]; exact ih y

theorem pickMin_decomp {l : List (Art × ℝ × ℝ)} {z : Art × ℝ × ℝ}
    (h : scanMin none l = some z) :
    ∃ l₁ l₂, l = l₁ ++ z :: l₂ ∧ (∀ x ∈ l₁, z.2.1 < x.2.1) ∧
      ∀ x ∈ l₂, ¬ x.2.1 < z.2.1 := by
  cases l with
  | nil => cases h
  | cons x xs =>
    rw [scanMin] at h
    rcases scanMin_from_some h with ⟨hz, hall⟩ | ⟨l₁, l₂, heq, hzx, h₁, h₂⟩
    · exact ⟨[], xs, by simp [hz], by simp, hz ▸ hall⟩
    · refine ⟨x :: l₁, l₂, by simp [heq], ?_, h₂⟩
      intro w hw
      rcases List.mem_cons.mp hw with hw | hw
      · exact hw ▸ hzx
      · exact h₁ w hw

theorem pickMin_mem {l : List (Art × ℝ × ℝ)} {z : Art × ℝ × ℝ}
    (h : scanMin none l = some z) : z ∈ l := by
  rcases pickMin_decomp h with ⟨l₁, l₂, heq, _, _⟩
  rw [heq]
  exact List.mem_append_right _ (List.mem_cons_self _ _)

theorem pickMin_min {l : List (Art × ℝ × ℝ)} {z : Art × ℝ × ℝ}
    (h : scanMin none l = some z) : ∀ x ∈ l, z.2.1 ≤ x.2.1 := by
  rcases pickMin_decomp h with ⟨l₁, l₂, heq, h₁, h₂⟩
  intro x hx
  rw [heq] at hx
  rcases List.mem_append.mp hx with hx | hx
  · exact le_of_lt (h₁ x hx)
  · rcases List.mem_cons.mp hx with hx | hx
    · rw [hx]
    · exact not_lt.mp (h₂ x hx)

end NDW

namespace NDW

/-! ### Input validation (claim C9) -/

theorem boundary_nil_of_short {l : Line} (h : l.coords.length < 2) : boundary l = [] := by
  rcases hc : l.coords with _ | ⟨a, _ | ⟨b, rest⟩⟩
  · simp [boundary, hc]
  · simp [boundary, hc]
  · rw [hc] at h
    simp at h
    omega

theorem get_lines_none_of_short {df : List Line} {l : Line} (hl : l ∈ df)
    (h : l.coords.length < 2) : get_lines df = none := by
  have hbe : linesBE df = none := by
    apply omap_eq_none _ hl
    simp [boundary_nil_of_short h, get_begin]
  simp [get_lines, hbe]

/-- C9.  A line feature with fewer than 2 coordinates makes the endpoint
extraction fail: `main` aborts with the input-validation error before any
round of the convergence loop runs, producing no partial result. -/
theorem malformed_line_aborts (df : List Line) (treshold : ℝ)
    (h : ∃ l ∈ df, l.coords.length < 2) :
    main df treshold = Except.error Err.badInput := by
  rcases h with ⟨l, hl, hlen⟩
  simp [main, get_lines_none_of_short hl hlen]

/-- C9 witness: a single 1-coordinate line aborts the run. -/
theorem malformed_line_aborts_check :
    main [{ id := 1, coords := [((0:ℚ), (0:ℚ))] }] 5 = Except.error Err.badInput :=
  malformed_line_aborts _ 5 ⟨{ id := 1, coords := [((0:ℚ), (0:ℚ))] },
    List.mem_singleton_self _, by decide⟩

/-! ### Empty target pool (claim C7) -/

/-- C7, amended.  An empty `no_successor` pool at the start of a round is
an error, not natural termination: sklearn's `fit` rejects an empty
training set, so the round faults and the loop never reaches the normal
stopping test. -/
theorem empty_target_pool_fault (treshold : ℝ) (fuel : ℕ) (lines_no_begin : List Line)
    (result : List Row) (previous : ℕ) :
    loop treshold (fuel + 1) [] lines_no_begin result previous = Except.error Err.fault := by
  simp [loop, roundCompute_nil_left]

/-- C7 counterexample: two lines forming a closed 2-cycle leave both pools
empty, a well-formed input on which the claim predicts a normal
zero-connector termination; the code instead faults in round 1. -/
theorem empty_target_pool_not_normal :
    main [{ id := 1, coords := [((0:ℚ), (0:ℚ)), ((1:ℚ), (0:ℚ))] },
          { id := 2, coords := [((1:ℚ), (0:ℚ)), ((0:ℚ), (0:ℚ))] }] 5 =
      Except.error Err.fault := rfl

/-! ### Loop reaches an error, not DONE, on too-small pools (claim C3) -/

/-- C3 counterexample: a single isolated 2-point line is a well-formed
input, but its pools have one element each, so the k=3 nearest-neighbor
query of round 1 raises and the loop never reaches the DONE state. -/
theorem single_line_never_done :
    main [{ id := 1, coords := [((0:ℚ), (0:ℚ)), ((1:ℚ), (0:ℚ))] }] 5 =
      Except.error Err.fault := rfl

/-! ### Nearest-neighbor result count (claim C6) -/

/-- C6 counterexample: with only 2 lines in the target pool the query does
not return `min(3, 2) = 2` ranked results per line; sklearn rejects
`n_neighbors=3 > n_samples=2` and the search errors out. -/
theorem small_pool_errors :
    kneighbors [((0:ℚ), (0:ℚ)), ((1:ℚ), (0:ℚ))] [((5:ℚ), (5:ℚ))] 3 = none := rfl

/-! ### Acceptance rule (claim C1) -/

/-- C1.  The chosen candidate of every group enters the output iff its
`angle` and `angle_art` are both strictly below the threshold and its
source id differs from its destination id; consequently no accepted
connector is a self-connection. -/
theorem acceptance_rule (lines_no_end lines_no_begin : List Line) (arts : List Art)
    (treshold : ℝ) (rows out : List Row)
    (hrows : cosRows lines_no_begin arts lines_no_end = some rows)
    (hout : calculate_cos lines_no_begin arts lines_no_end treshold = some out) :
    (∀ r ∈ rows, (r ∈ out ↔ (r.angle < treshold ∧ r.angle_art < treshold ∧ r.e ≠ r.b))) ∧
    (∀ r ∈ out, r.e ≠ r.b) := by
  have hout2 : out = rows.filter (fun r => decide (accept treshold r)) := by
    rw [calculate_cos, hrows] at hout
    simpa using hout.symm
  subst hout2
  constructor
  · intro r hr
    rw [List.mem_filter]
    simp only [decide_eq_true_eq, accept]
    constructor
    · rintro ⟨-, h1, h2, h3⟩
      exact ⟨h1, h3, h2⟩
    · rintro ⟨h1, h3, h2⟩
      exact ⟨hr, h1, h2, h3⟩
  · intro r hr
    have := (List.mem_filter.mp hr).2
    simp only [decide_eq_true_eq, accept] at this
    exact this.2.1

end NDW

namespace NDW

/-! ### Group selection (claims C2, C10) -/

/-- C2.  For a non-empty candidate group whose angle computations all
succeed, the disambiguator selects exactly one candidate; the selected
candidate belongs to the group, its recorded `angle` and `angle_art` are
exactly the two deltas `candDegrees` computes for it from the raw signed
bearings (`degrees(atan2(dy, dx))`, no normalization), and its `angle`
is minimal among the group's `angle` deltas. -/
theorem group_selection_minimizes (lines_no_end lines_no_begin : List Line) (g : List Art)
    (hne : g ≠ [])
    (hdeg : ∀ c ∈ g, ∃ p, candDegrees lines_no_end lines_no_begin c = some p) :
    ∃ c d da, selectGroup lines_no_end lines_no_begin g = some (c, d, da) ∧
      c ∈ g ∧ candDegrees lines_no_end lines_no_begin c = some (d, da) ∧
      ∀ c' ∈ g, ∀ d' da', candDegrees lines_no_end lines_no_begin c' = some (d', da') →
        d ≤ d' := by
  have h1 : ∀ c ∈ g, ∃ w, (candDegrees lines_no_end lines_no_begin c).map
      (fun p => (c, p.1, p.2)) = some w := by
    intro c hc
    rcases hdeg c hc with ⟨p, hp⟩
    exact ⟨(c, p.1, p.2), by rw [hp]; rfl⟩
  rcases omap_isSome h1 with ⟨w, hw⟩
  have hwne : w ≠ [] := by
    intro hnil
    apply hne
    have := omap_length hw
    rw [hnil] at this
    cases g with
    | nil => rfl
    | cons a as => simp at this
  obtain ⟨z, hz⟩ : ∃ z, scanMin none w = some z := by
    cases w with
    | nil => exact absurd rfl hwne
    | cons x xs =>
      rw [scanMin]
      exact scanMin_from_some_isSome xs x
  obtain ⟨a, ha, hfa⟩ := omap_mem hw (pickMin_mem hz)
  rcases Option.map_eq_some'.mp hfa with ⟨p, hp, hpz⟩
  refine ⟨a, p.1, p.2, ?_, ha, by rw [hp], ?_⟩
  · rw [selectGroup, hw]
    show scanMin none w = some (a, p.1, p.2)
    rw [hz, ← hpz]
  · intro c' hc' d' da' hd'
    obtain ⟨b, hb, hfb⟩ := forall₂_mem_left (omap_forall₂ hw) hc'
    have hbval : b = (c', d', da') := by
      rw [hd'] at hfb
      exact (Option.some_inj.mp hfb).symm
    have := pickMin_min hz b hb
    rw [← hpz] at this
    rw [hbval] at this
    exact this

/-- C10.  When the group is sorted with strictly increasing destination id
(the `(e_idx, b_idx)` sort order of the candidate frame restricted to one
group), the strict `<` comparison of the scan keeps the first candidate
attaining the minimal angle, so ties are resolved in favor of the smallest
destination id and the selection is a deterministic function of the
group. -/
theorem tie_break_smallest_destination (lines_no_end lines_no_begin : List Line)
    (g : List Art) (c : Art) (d da : ℝ)
    (hsort : List.Pairwise (fun x y => x.b < y.b) g)
    (hsel : selectGroup lines_no_end lines_no_begin g = some (c, d, da)) :
    ∀ c' ∈ g, ∀ d' da', candDegrees lines_no_end lines_no_begin c' = some (d', da') →
      d' = d → c.b ≤ c'.b := by
  rw [selectGroup] at hsel
  rcases Option.bind_eq_some.mp hsel with ⟨w, hw, hz⟩
  rcases pickMin_decomp hz with ⟨w₁, w₂, hweq, hstrict, hge⟩
  rw [hweq] at hw
  rcases forall₂_append_cons_inv (omap_forall₂ hw) with ⟨g₁, a, g₂, hgexp, hf₁, hfa, hf₂⟩
  rcases Option.map_eq_some'.mp hfa with ⟨p, _, hpz⟩
  have hac : a = c := congrArg Prod.fst hpz
  subst hac
  intro c' hc' d' da' hd' hdd
  rw [hgexp] at hc'
  rcases List.mem_append.mp hc' with hmem | hmem
  · exfalso
    obtain ⟨b, hb, hfb⟩ := forall₂_mem_left hf₁ hmem
    have hbval : b = (c', d', da') := by
      rw [hd'] at hfb
      exact (Option.some_inj.mp hfb).symm
    have hlt := hstrict b hb
    rw [hbval] at hlt
    simp only at hlt
    rw [hdd] at hlt
    exact lt_irrefl d hlt
  · rcases List.mem_cons.mp hmem with hmem | hmem
    · rw [hmem]
    · rw [hgexp] at hsort
      have hp2 := (List.pairwise_append.mp hsort).2.1
      exact le_of_lt ((List.pairwise_cons.mp hp2).1 c' hmem)

end NDW

namespace NDW

/-! ### Concrete group-level examples (eastbound collinear segments) -/

/-- Example target (`no_successor`) line: eastbound unit segment. -/
def exT : Line := { id := 10, coords := [((1:ℚ), (0:ℚ)), ((2:ℚ), (0:ℚ))] }

/-- Example destination (`no_predecessor`) line. -/
def exD : Line := { id := 20, coords := [((3:ℚ), (0:ℚ)), ((4:ℚ), (0:ℚ))] }

/-- Second example destination line with the same geometry, larger id. -/
def exD2 : Line := { id := 21, coords := [((3:ℚ), (0:ℚ)), ((4:ℚ), (0:ℚ))] }

/-- Candidate connector from `exT`'s end to `exD`'s begin. -/
def exA : Art := { e := 10, b := 20, geom := [((2:ℚ), (0:ℚ)), ((3:ℚ), (0:ℚ))] }

/-- Candidate connector from `exT`'s end to `exD2`'s begin. -/
def exA2 : Art := { e := 10, b := 21, geom := [((2:ℚ), (0:ℚ)), ((3:ℚ), (0:ℚ))] }

theorem angle_e12 : AngleBtw2Points ((1:ℚ), (0:ℚ)) ((2:ℚ), (0:ℚ)) = 0 :=
  angle_east rfl (by norm_num)

theorem angle_e23 : AngleBtw2Points ((2:ℚ), (0:ℚ)) ((3:ℚ), (0:ℚ)) = 0 :=
  angle_east rfl (by norm_num)

theorem angle_e34 : AngleBtw2Points ((3:ℚ), (0:ℚ)) ((4:ℚ), (0:ℚ)) = 0 :=
  angle_east rfl (by norm_num)

theorem candDegrees_C2 : candDegrees [exT] [exD] exA = some (0, 0) := by
  unfold candDegrees exT exD exA
  simp [List.find?, last2, first2, angle_e12, angle_e23, angle_e34]

theorem candDegrees_C10a : candDegrees [exT] [exD, exD2] exA = some (0, 0) := by
  unfold candDegrees exT exD exD2 exA
  simp [List.find?, last2, first2, angle_e12, angle_e23, angle_e34]

theorem candDegrees_C10b : candDegrees [exT] [exD, exD2] exA2 = some (0, 0) := by
  unfold candDegrees exT exD exD2 exA2
  simp [List.find?, last2, first2, angle_e12, angle_e23, angle_e34]

theorem selectGroup_C2 : selectGroup [exT] [exD] [exA] = some (exA, 0, 0) := by
  simp [selectGroup, omap, candDegrees_C2, scanMin]

theorem selectGroup_C10 : selectGroup [exT] [exD, exD2] [exA, exA2] = some (exA, 0, 0) := by
  simp [selectGroup, omap, candDegrees_C10a, candDegrees_C10b, scanMin, lt_self_iff_false]

/-- C2 witness: a singleton group on concrete pools. -/
theorem group_selection_minimizes_check :
    ∃ c d da, selectGroup [exT] [exD] [exA] = some (c, d, da) ∧ c ∈ [exA] ∧
      candDegrees [exT] [exD] c = some (d, da) ∧
      ∀ c' ∈ [exA], ∀ d' da', candDegrees [exT] [exD] c' = some (d', da') → d ≤ d' :=
  group_selection_minimizes [exT] [exD] [exA] (by simp)
    (by
      intro c hc
      rw [List.mem_singleton.mp hc]
      exact ⟨(0, 0), candDegrees_C2⟩)

/-- C10 witness: a two-candidate group with an exact tie on `angle`; the
selection keeps the candidate with destination id 20, not 21. -/
theorem tie_break_smallest_destination_check : exA.b ≤ exA2.b :=
  tie_break_smallest_destination [exT] [exD, exD2] [exA, exA2] exA 0 0
    (by decide) selectGroup_C10 exA2 (by simp) 0 0 candDegrees_C10b rfl

/-- The row `calculate_cos` records for the singleton example group. -/
def exRow : Row := { e := 10, b := 20, angle := 0, angle_art := 0,
                     geom := [((2:ℚ), (0:ℚ)), ((3:ℚ), (0:ℚ))] }

theorem cosRows_check : cosRows [exD] [exA] [exT] = some [exRow] := by
  have hg : groupKeys [exA] = [exA.e] := rfl
  have hgo : groupOf [exA] exA.e = [exA] := rfl
  rw [cosRows, hg]
  simp [omap, hgo, selectGroup_C2]
  rfl

theorem calculate_cos_check : calculate_cos [exD] [exA] [exT] 5 = some [exRow] := by
  rw [calculate_cos, cosRows_check]
  have hacc : decide (accept 5 exRow) = true := by
    apply decide_eq_true
    refine ⟨by norm_num [exRow], by decide, by norm_num [exRow]⟩
  simp [List.filter, hacc]

/-- C1 witness: the concrete singleton group's chosen row passes all three
acceptance conditions and is indeed in the output. -/
theorem acceptance_rule_check :
    (∀ r ∈ [exRow], (r ∈ [exRow] ↔ (r.angle < 5 ∧ r.angle_art < 5 ∧ r.e ≠ r.b))) ∧
    (∀ r ∈ [exRow], r.e ≠ r.b) :=
  acceptance_rule [exT] [exD] [exA] 5 [exRow] [exRow] cosRows_check calculate_cos_check

/-! ### Degenerate (zero-length) segments (claim C8) -/

/-- Target line whose final segment is zero-length (repeated last vertex). -/
def exTdeg : Line := { id := 30, coords := [((1:ℚ), (0:ℚ)), ((2:ℚ), (0:ℚ)), ((2:ℚ), (0:ℚ))] }

/-- Ordinary destination line for the degenerate example. -/
def exDdeg : Line := { id := 31, coords := [((3:ℚ), (0:ℚ)), ((4:ℚ), (0:ℚ))] }

/-- Candidate connector for the degenerate example. -/
def exAdeg : Art := { e := 30, b := 31, geom := [((2:ℚ), (0:ℚ)), ((3:ℚ), (0:ℚ))] }

/-- Its recorded row. -/
def exRowDeg : Row := { e := 30, b := 31, angle := 0, angle_art := 0,
                        geom := [((2:ℚ), (0:ℚ)), ((3:ℚ), (0:ℚ))] }

theorem candDegrees_deg : candDegrees [exTdeg] [exDdeg] exAdeg = some (0, 0) := by
  unfold candDegrees exTdeg exDdeg exAdeg
  simp [List.find?, last2, first2, angle_degenerate, angle_e23, angle_e34]

theorem selectGroup_deg : selectGroup [exTdeg] [exDdeg] [exAdeg] = some (exAdeg, 0, 0) := by
  simp [selectGroup, omap, candDegrees_deg, scanMin]

theorem cosRows_deg : cosRows [exDdeg] [exAdeg] [exTdeg] = some [exRowDeg] := by
  have hg : groupKeys [exAdeg] = [exAdeg.e] := rfl
  have hgo : groupOf [exAdeg] exAdeg.e = [exAdeg] := rfl
  rw [cosRows, hg]
  simp [omap, hgo, selectGroup_deg]
  rfl

/-- C8 counterexample: the candidate whose source line ends in a zero-length
segment is not rejected: its bearing comes out as `atan2(0,0) = 0` degrees,
it passes the 5-degree threshold checks, and it is accepted into the
output. -/
theorem degenerate_segment_accepted :
    calculate_cos [exDdeg] [exAdeg] [exTdeg] 5 = some [exRowDeg] := by
  rw [calculate_cos, cosRows_deg]
  have hacc : decide (accept 5 exRowDeg) = true := by
    apply decide_eq_true
    refine ⟨by norm_num [exRowDeg], by decide, by norm_num [exRowDeg]⟩
  simp [List.filter, hacc]

/-- C8, amended.  A zero-length segment does not make the bearing
computation fault and is not special-cased as a rejection: Python's
`atan2(0, 0)` is `0`, so the bearing of a degenerate segment is 0 degrees
and the candidate flows through the ordinary threshold comparisons (the
concrete degenerate candidate's angle deltas evaluate to `(0, 0)` and pass
the acceptance test). -/
theorem degenerate_bearing_no_fault :
    (∀ p : Point, AngleBtw2Points p p = 0) ∧
    candDegrees [exTdeg] [exDdeg] exAdeg = some (0, 0) ∧
    accept 5 exRowDeg :=
  ⟨angle_degenerate, candDegrees_deg, by norm_num [accept, exRowDeg]⟩

end NDW

namespace NDW

/-! ### Nearest-neighbor query results (claim C6, amended part) -/

/-- C6, amended.  When the target pool has at least 3 points and the query
set is non-empty, the neighbor search succeeds and returns, per query,
exactly 3 training positions ranked by non-decreasing Euclidean distance,
all in range; when the target pool has fewer than 3 points the search does
not return `min(3, |pool|)` results: it raises (sklearn rejects
`n_neighbors > n_samples` and an empty fit), modeled as `none`. -/
theorem kneighbors_results (train queries : List Point) :
    (3 ≤ train.length → queries ≠ [] →
      ∃ idx, kneighbors train queries 3 = some idx ∧ idx.length = queries.length ∧
        List.Forall₂ (fun q row => row.length = 3 ∧
          List.Pairwise (fun i j => sqDist (nth train i) q ≤ sqDist (nth train j) q) row ∧
          ∀ i ∈ row, i < train.length) queries idx) ∧
    (train.length < 3 → kneighbors train queries 3 = none) := by
  constructor
  · intro h3 hq
    have hq' : ¬ queries.length = 0 := by
      simpa [List.length_eq_zero] using hq
    refine ⟨queries.map (fun q => (sortIdx train q).take 3), ?_, by simp, ?_⟩
    · unfold kneighbors
      rw [if_neg (by omega), if_neg hq', if_neg (by omega)]
    · rw [List.forall₂_map_right_iff]
      rw [List.forall₂_same]
      intro q _
      refine ⟨?_, ?_, ?_⟩
      · rw [List.length_take, sortIdx, List.length_insertionSort, List.length_range]
        omega
      · have hs : List.Sorted (distLe train q) (sortIdx train q) :=
          List.sorted_insertionSort _ _
        have hp : List.Pairwise (distLe train q) ((sortIdx train q).take 3) :=
          hs.sublist (List.take_sublist 3 _)
        refine hp.imp ?_
        intro i j hij
        rcases hij with h | ⟨h, _⟩
        · exact le_of_lt h
        · exact le_of_eq h
      · intro i hi
        have hmem : i ∈ sortIdx train q := (List.take_sublist 3 _).subset hi
        rw [sortIdx, List.mem_insertionSort, List.mem_range] at hmem
        exact hmem
  · intro hlt
    unfold kneighbors
    rcases Nat.eq_zero_or_pos train.length with h0 | h0
    · rw [if_pos h0]
    · rw [if_neg (by omega)]
      by_cases hq : queries.length = 0
      · rw [if_pos hq]
      · rw [if_neg hq, if_pos (by omega)]

/-- C6 witness: a 3-point pool returns 3 ranked results for the single
query; a 2-point pool errors out. -/
theorem kneighbors_results_check :
    (∃ idx, kneighbors [((1:ℚ), (1:ℚ)), ((2:ℚ), (1:ℚ)), ((3:ℚ), (1:ℚ))] [((2:ℚ), (2:ℚ))] 3 =
        some idx ∧
      idx.length = ([((2:ℚ), (2:ℚ))] : List Point).length ∧
      List.Forall₂ (fun q row => row.length = 3 ∧
        List.Pairwise (fun i j =>
          sqDist (nth [((1:ℚ), (1:ℚ)), ((2:ℚ), (1:ℚ)), ((3:ℚ), (1:ℚ))] i) q ≤
          sqDist (nth [((1:ℚ), (1:ℚ)), ((2:ℚ), (1:ℚ)), ((3:ℚ), (1:ℚ))] j) q) row ∧
        ∀ i ∈ row, i < ([((1:ℚ), (1:ℚ)), ((2:ℚ), (1:ℚ)), ((3:ℚ), (1:ℚ))] : List Point).length)
        [((2:ℚ), (2:ℚ))] idx) ∧
    kneighbors [((1:ℚ), (1:ℚ)), ((2:ℚ), (1:ℚ))] [((2:ℚ), (2:ℚ))] 3 = none :=
  ⟨(kneighbors_results _ _).1 (by decide) (by decide),
   (kneighbors_results _ _).2 (by decide)⟩

end NDW

namespace NDW

/-! ### Positional helpers -/

theorem forall₂_get? {α β : Type _} {R : α → β → Prop} {l₁ : List α} {l₂ : List β}
    (h : List.Forall₂ R l₁ l₂) :
    ∀ {i : ℕ} {a : α}, l₁.get? i = some a → ∃ b, l₂.get? i = some b ∧ R a b := by
  induction h with
  | nil => intro i a ha; cases i <;> cases ha
  | cons hx _ ih =>
    intro i a ha
    cases i with
    | zero =>
      simp at ha
      exact ⟨_, rfl, ha ▸ hx⟩
    | succ n =>
      rw [List.get?_cons_succ] at ha
      rcases ih ha with ⟨b, hb, hr⟩
      exact ⟨b, by rw [List.get?_cons_succ]; exact hb, hr⟩

theorem nth_eq_of_get? {l : List Point} {i : ℕ} {p : Point} (h : l.get? i = some p) :
    nth l i = p := by
  show (l.get? i).getD (0, 0) = p
  rw [h]
  rfl

/-- The first entry of the per-query ranking is a position of globally
minimal distance to the query. -/
theorem sortIdx_zero_min {train : List Point} {q : Point} {i₀ : ℕ}
    (h : (sortIdx train q).get? 0 = some i₀) :
    ∀ j < train.length, sqDist (nth train i₀) q ≤ sqDist (nth train j) q := by
  intro j hj
  have hsorted : List.Sorted (distLe train q) (sortIdx train q) :=
    List.sorted_insertionSort _ _
  cases hs : sortIdx train q with
  | nil => rw [hs] at h; cases h
  | cons x rest =>
    rw [hs] at h
    have hx : x = i₀ := by simpa using h
    subst hx
    have hj' : j ∈ sortIdx train q := by
      rw [sortIdx, List.mem_insertionSort, List.mem_range]
      exact hj
    rw [hs] at hj' hsorted
    rcases List.mem_cons.mp hj' with hj' | hj'
    · rw [hj']
    · have hr : distLe train q x j := (List.pairwise_cons.mp hsorted).1 j hj'
      rcases hr with hlt | ⟨heq, _⟩
      · exact le_of_lt hlt
      · exact le_of_eq heq

/-! ### Connector synthesis (claim C5) -/

/-- C5.  A successful synthesis stage produces, positionally, exactly one
candidate per `no_predecessor` line (the output is the `(e_idx, b_idx)`
sort of that one-per-line list): the candidate's destination is the line
itself, its source is the rank-0 (nearest by Euclidean distance among all
pool end points) `no_successor` line returned by the neighbor query —
ranks 1 and 2 never influence the result — and its geometry is the
2-point segment from the source's end point to the line's begin point. -/
theorem synthesis_one_per_line (lines_no_end lines_no_begin : List Line) (arts : List Art)
    (hids : (ids lines_no_end).Nodup)
    (h : roundPrep lines_no_end lines_no_begin = some arts) :
    ∃ arts₀, arts = List.insertionSort artLe arts₀ ∧
      arts₀.length = lines_no_begin.length ∧
      ∀ i l, lines_no_begin.get? i = some l →
        ∃ a, arts₀.get? i = some a ∧ a.b = l.id ∧
        ∃ bp, get_begin (boundary l) = some bp ∧
        ∃ t, t ∈ lines_no_end ∧ a.e = t.id ∧
        ∃ ep, get_end (boundary t) = some ep ∧ a.geom = [ep, bp] ∧
        ∀ t' ∈ lines_no_end, ∀ ep', get_end (boundary t') = some ep' →
          sqDist ep bp ≤ sqDist ep' bp := by
  rw [roundPrep] at h
  rcases Option.bind_eq_some.mp h with ⟨eps, heps, h⟩
  rcases Option.bind_eq_some.mp h with ⟨bps, hbps, h⟩
  rcases Option.bind_eq_some.mp h with ⟨idx, hidx, h⟩
  rcases Option.bind_eq_some.mp h with ⟨firsts, hfirsts, h⟩
  rw [generate_artificial_lines] at h
  rcases Option.bind_eq_some.mp h with ⟨arts₀, hgen, hsort⟩
  have hsort' : arts = List.insertionSort artLe arts₀ := by
    simpa using hsort.symm
  have hepslen : eps.length = lines_no_end.length := omap_length heps
  have hbpslen : bps.length = lines_no_begin.length := omap_length hbps
  have hfirstslen : firsts.length = lines_no_begin.length := by
    have h1 : firsts.length = idx.length := omap_length hfirsts
    unfold kneighbors at hidx
    split_ifs at hidx with h2 h3 h4
    have : idx = bps.map (fun q => (sortIdx eps q).take 3) := by
      simpa using hidx.symm
    rw [h1, this, List.length_map, hbpslen]
  have hziplen : (lines_no_begin.zip firsts).length = lines_no_begin.length := by
    rw [List.length_zip, hfirstslen, Nat.min_self]
  refine ⟨arts₀, hsort', by rw [omap_length hgen, hziplen], ?_⟩
  intro i l hl
  rcases forall₂_get? (omap_forall₂ hbps) hl with ⟨bp, hbpi, hbpval⟩
  have hidxval : idx = bps.map (fun q => (sortIdx eps q).take 3) := by
    unfold kneighbors at hidx
    split_ifs at hidx with h2 h3 h4
    simpa using hidx.symm
  have hrowi : idx.get? i = some ((sortIdx eps bp).take 3) := by
    rw [hidxval, List.get?_map, hbpi]
    rfl
  rcases forall₂_get? (omap_forall₂ hfirsts) hrowi with ⟨fid, hfidi, hfidval⟩
  rcases Option.bind_eq_some.mp hfidval with ⟨i₀, hi₀, hfidval⟩
  rcases Option.bind_eq_some.mp hfidval with ⟨t₀, ht₀, hfidval⟩
  have hfid : fid = t₀.id := by simpa using hfidval.symm
  have hzipi : (lines_no_begin.zip firsts).get? i = some (l, fid) :=
    (List.get?_zip_eq_some _ _ _ _).mpr ⟨hl, hfidi⟩
  rcases forall₂_get? (omap_forall₂ hgen) hzipi with ⟨a, hai, haval⟩
  rcases Option.bind_eq_some.mp haval with ⟨bp', hbp', haval⟩
  rcases Option.bind_eq_some.mp haval with ⟨t, ht, haval⟩
  rcases Option.bind_eq_some.mp haval with ⟨ep, hep, haval⟩
  have haeq : a = { e := fid, b := l.id, geom := [ep, bp'] } := by
    simpa using haval.symm
  have hbp'bp : bp' = bp := by
    rw [hbpval] at hbp'
    exact (Option.some_inj.mp hbp').symm
  subst hbp'bp
  have htmem : t ∈ lines_no_end := List.mem_of_find?_eq_some ht
  have htid : t.id = fid := by
    have := List.find?_some ht
    exact of_decide_eq_true this
  have ht₀mem : t₀ ∈ lines_no_end := List.get?_mem ht₀
  have htt₀ : t = t₀ := by
    apply List.inj_on_of_nodup_map (f := fun x : Line => x.id) hids htmem ht₀mem
    rw [htid, hfid]
  refine ⟨a, hai, by rw [haeq], bp', hbpval, t, htmem, by rw [haeq, ← htid], ep, hep,
    by rw [haeq], ?_⟩
  intro t' ht' ep' hep'
  rcases forall₂_get? (omap_forall₂ heps) ht₀ with ⟨ep₀, hep₀i, hep₀val⟩
  have hepval : ep = ep₀ := by
    rw [htt₀, hep₀val] at hep
    exact (Option.some_inj.mp hep).symm
  rcases List.mem_iff_get.mp ht' with ⟨⟨j, hjlt⟩, hj⟩
  have hj' : lines_no_end.get? j = some t' := by
    rw [List.get?_eq_get hjlt, hj]
  rcases forall₂_get? (omap_forall₂ heps) hj' with ⟨epj, hepji, hepjval⟩
  have hepj' : ep' = epj := by
    rw [hepjval] at hep'
    exact (Option.some_inj.mp hep').symm
  have hrow0 : (sortIdx eps bp').get? 0 = some i₀ := by
    rw [← List.get?_take (by omega : 0 < 3)]
    exact hi₀
  have hmin := sortIdx_zero_min hrow0 j (by rw [hepslen]; exact hjlt)
  rw [nth_eq_of_get? hep₀i, nth_eq_of_get? hepji] at hmin
  rw [hepval, hepj']
  exact hmin

end NDW

namespace NDW

/-! ### A concrete 4-line network: an eastbound chain with gaps -/

/-- Four collinear eastbound 2-point lines with gaps between consecutive
lines; every line is in both pools. -/
def exL1 : Line := { id := 1, coords := [((1:ℚ), (0:ℚ)), ((3:ℚ), (0:ℚ))] }

def exL2 : Line := { id := 2, coords := [((4:ℚ), (0:ℚ)), ((6:ℚ), (0:ℚ))] }

def exL3 : Line := { id := 3, coords := [((7:ℚ), (0:ℚ)), ((9:ℚ), (0:ℚ))] }

def exL4 : Line := { id := 4, coords := [((10:ℚ), (0:ℚ)), ((12:ℚ), (0:ℚ))] }

def ex4 : List Line := [exL1, exL2, exL3, exL4]

theorem get_lines_ex4 : get_lines ex4 = some (ex4, ex4) := rfl

theorem eps_ex4 : omap (fun l => get_end (boundary l)) ex4 =
    some [((3:ℚ), (0:ℚ)), ((6:ℚ), (0:ℚ)), ((9:ℚ), (0:ℚ)), ((12:ℚ), (0:ℚ))] := rfl

theorem bps_ex4 : omap (fun l => get_begin (boundary l)) ex4 =
    some [((1:ℚ), (0:ℚ)), ((4:ℚ), (0:ℚ)), ((7:ℚ), (0:ℚ)), ((10:ℚ), (0:ℚ))] := rfl

theorem kneighbors_ex4 :
    kneighbors [((3:ℚ), (0:ℚ)), ((6:ℚ), (0:ℚ)), ((9:ℚ), (0:ℚ)), ((12:ℚ), (0:ℚ))]
      [((1:ℚ), (0:ℚ)), ((4:ℚ), (0:ℚ)), ((7:ℚ), (0:ℚ)), ((10:ℚ), (0:ℚ))] 3 =
      some [[0, 1, 2], [0, 1, 2], [1, 2, 0], [2, 3, 1]] := by
  norm_num [kneighbors, sortIdx, List.insertionSort, List.orderedInsert, List.range,
    List.range.loop, distLe, nth, sqDist, List.take]

/-- Candidates generated in the example's first round: lines 2, 3, 4 pair
with their left neighbor; line 1 pairs with itself. -/
def exArts : List Art :=
  [{ e := 1, b := 1, geom := [((3:ℚ), (0:ℚ)), ((1:ℚ), (0:ℚ))] },
   { e := 1, b := 2, geom := [((3:ℚ), (0:ℚ)), ((4:ℚ), (0:ℚ))] },
   { e := 2, b := 3, geom := [((6:ℚ), (0:ℚ)), ((7:ℚ), (0:ℚ))] },
   { e := 3, b := 4, geom := [((9:ℚ), (0:ℚ)), ((10:ℚ), (0:ℚ))] }]

theorem roundPrep_ex4 : roundPrep ex4 ex4 = some exArts := by
  have step : roundPrep ex4 ex4 =
      (kneighbors [((3:ℚ), (0:ℚ)), ((6:ℚ), (0:ℚ)), ((9:ℚ), (0:ℚ)), ((12:ℚ), (0:ℚ))]
        [((1:ℚ), (0:ℚ)), ((4:ℚ), (0:ℚ)), ((7:ℚ), (0:ℚ)), ((10:ℚ), (0:ℚ))] 3).bind
        (fun idx => (omap (fun r => do
            let i ← r.get? 0
            let l ← ex4.get? i
            pure l.id) idx).bind
          (fun firsts => generate_artificial_lines (ex4.zip firsts) ex4)) := rfl
  rw [step, kneighbors_ex4]
  rfl

/-- C5 witness: the concrete round's synthesis stage. -/
theorem synthesis_one_per_line_check :
    ∃ arts₀, exArts = List.insertionSort artLe arts₀ ∧
      arts₀.length = ex4.length ∧
      ∀ i l, ex4.get? i = some l →
        ∃ a, arts₀.get? i = some a ∧ a.b = l.id ∧
        ∃ bp, get_begin (boundary l) = some bp ∧
        ∃ t, t ∈ ex4 ∧ a.e = t.id ∧
        ∃ ep, get_end (boundary t) = some ep ∧ a.geom = [ep, bp] ∧
        ∀ t' ∈ ex4, ∀ ep', get_end (boundary t') = some ep' →
          sqDist ep bp ≤ sqDist ep' bp :=
  synthesis_one_per_line ex4 ex4 exArts (by decide) roundPrep_ex4

end NDW

namespace NDW

/-! ### Round-level structural lemmas -/

theorem length_filter_lt {α : Type _} (p : α → Bool) {l : List α} {a : α}
    (ha : a ∈ l) (hpa : p a = false) : (l.filter p).length < l.length := by
  induction l with
  | nil => cases ha
  | cons x xs ih =>
    rcases List.mem_cons.mp ha with h | h
    · subst h
      rw [List.filter_cons, hpa]
      simp only [List.length_cons]
      exact Nat.lt_succ_of_le (List.length_filter_le p xs)
    · rw [List.filter_cons]
      cases hx : p x
      · simp only [List.length_cons]
        exact Nat.lt_succ_of_lt (ih h)
      · simp only [List.length_cons]
        exact Nat.succ_lt_succ (ih h)

theorem zip_map_fst_sublist {α β : Type _} :
    ∀ (l₁ : List α) (l₂ : List β), List.Sublist ((l₁.zip l₂).map Prod.fst) l₁ := by
  intro l₁
  induction l₁ with
  | nil => intro l₂; simp
  | cons x xs ih =>
    intro l₂
    cases l₂ with
    | nil => simp
    | cons y ys =>
      rw [List.zip_cons_cons, List.map_cons]
      exact List.Sublist.cons₂ x (ih ys)

theorem forall₂_map_eq {α β γ : Type _} {R : α → β → Prop} {l : List α} {m : List β}
    (h : List.Forall₂ R l m) (f : α → γ) (g : β → γ)
    (hfg : ∀ a b, R a b → g b = f a) : m.map g = l.map f := by
  induction h with
  | nil => rfl
  | cons hx _ ih => simp [ih, hfg _ _ hx]

theorem linesBE_map_fst {df : List Line} {lbe : List (Line × Point × Point)}
    (h : linesBE df = some lbe) : lbe.map (·.1) = df := by
  have h2 : lbe.map (·.1) = df.map id := by
    apply forall₂_map_eq (omap_forall₂ h) id (·.1)
    intro l x hx
    rcases Option.bind_eq_some.mp hx with ⟨b, _, hx⟩
    rcases Option.bind_eq_some.mp hx with ⟨e, _, hx⟩
    simp at hx
    rw [← hx]
    rfl
  rw [h2, List.map_id]

theorem get_lines_sublist {df ne nb : List Line} (h : get_lines df = some (ne, nb)) :
    List.Sublist ne df ∧ List.Sublist nb df := by
  rw [get_lines] at h
  rcases Option.bind_eq_some.mp h with ⟨lbe, hlbe, h⟩
  have hmap := linesBE_map_fst hlbe
  simp only [Option.some_inj] at h
  cases h
  constructor
  · calc List.Sublist ((lbe.filter _).map (·.1)) (lbe.map (·.1)) :=
          (List.filter_sublist _).map _
      _ = df := hmap
  · calc List.Sublist ((lbe.filter _).map (·.1)) (lbe.map (·.1)) :=
          (List.filter_sublist _).map _
      _ = df := hmap

theorem selectGroup_mem {lines_no_end lines_no_begin : List Line} {g : List Art}
    {c : Art} {d da : ℝ}
    (h : selectGroup lines_no_end lines_no_begin g = some (c, d, da)) :
    c ∈ g ∧ candDegrees lines_no_end lines_no_begin c = some (d, da) := by
  rw [selectGroup] at h
  rcases Option.bind_eq_some.mp h with ⟨w, hw, hz⟩
  obtain ⟨a, ha, hfa⟩ := omap_mem hw (pickMin_mem hz)
  rcases Option.map_eq_some'.mp hfa with ⟨p, hp, hpz⟩
  have hac : a = c := congrArg Prod.fst hpz
  subst hac
  have hdp : p = (d, da) := by
    have h1 : p.1 = d := congrArg (fun x => x.2.1) hpz
    have h2 : p.2 = da := congrArg (fun x => x.2.2) hpz
    cases p
    simp at h1 h2
    rw [h1, h2]
  exact ⟨ha, hdp ▸ hp⟩

end NDW

namespace NDW

theorem roundPrep_art_mem {lines_no_end lines_no_begin : List Line} {arts : List Art}
    (h : roundPrep lines_no_end lines_no_begin = some arts) :
    ∀ a ∈ arts, (∃ l ∈ lines_no_end, a.e = l.id) ∧ (∃ l ∈ lines_no_begin, a.b = l.id) := by
  rw [roundPrep] at h
  rcases Option.bind_eq_some.mp h with ⟨eps, _, h⟩
  rcases Option.bind_eq_some.mp h with ⟨bps, _, h⟩
  rcases Option.bind_eq_some.mp h with ⟨idx, _, h⟩
  rcases Option.bind_eq_some.mp h with ⟨firsts, _, h⟩
  rw [generate_artificial_lines] at h
  rcases Option.bind_eq_some.mp h with ⟨arts₀, hgen, hsort⟩
  have hsort' : arts = List.insertionSort artLe arts₀ := by simpa using hsort.symm
  intro a ha
  have ha₀ : a ∈ arts₀ := by
    rw [hsort', List.mem_insertionSort] at ha
    exact ha
  obtain ⟨lt, hlt, hmk⟩ := omap_mem hgen ha₀
  rcases Option.bind_eq_some.mp hmk with ⟨bp, _, hmk⟩
  rcases Option.bind_eq_some.mp hmk with ⟨t, ht, hmk⟩
  rcases Option.bind_eq_some.mp hmk with ⟨ep, _, hmk⟩
  have haval : a = { e := lt.2, b := lt.1.id, geom := [ep, bp] } := by
    simpa using hmk.symm
  constructor
  · refine ⟨t, List.mem_of_find?_eq_some ht, ?_⟩
    have htid := List.find?_some ht
    simp only [decide_eq_true_eq] at htid
    rw [haval, htid]
  · exact ⟨lt.1, (List.of_mem_zip hlt).1, by rw [haval]⟩

theorem roundPrep_b_nodup {lines_no_end lines_no_begin : List Line} {arts : List Art}
    (hids : (ids lines_no_begin).Nodup)
    (h : roundPrep lines_no_end lines_no_begin = some arts) :
    (arts.map (·.b)).Nodup := by
  rw [roundPrep] at h
  rcases Option.bind_eq_some.mp h with ⟨eps, _, h⟩
  rcases Option.bind_eq_some.mp h with ⟨bps, _, h⟩
  rcases Option.bind_eq_some.mp h with ⟨idx, _, h⟩
  rcases Option.bind_eq_some.mp h with ⟨firsts, _, h⟩
  rw [generate_artificial_lines] at h
  rcases Option.bind_eq_some.mp h with ⟨arts₀, hgen, hsort⟩
  have hsort' : arts = List.insertionSort artLe arts₀ := by simpa using hsort.symm
  have hperm : List.Perm (arts.map (·.b)) (arts₀.map (·.b)) := by
    rw [hsort']
    exact (List.perm_insertionSort artLe arts₀).map _
  apply hperm.nodup_iff.mpr
  have hmapeq : arts₀.map (·.b) =
      ((lines_no_begin.zip firsts).map Prod.fst).map (·.id) := by
    rw [List.map_map]
    apply forall₂_map_eq (omap_forall₂ hgen) (fun lt => ((·.id) ∘ Prod.fst) lt) (·.b)
    intro lt a hmk
    rcases Option.bind_eq_some.mp hmk with ⟨bp, _, hmk⟩
    rcases Option.bind_eq_some.mp hmk with ⟨t, _, hmk⟩
    rcases Option.bind_eq_some.mp hmk with ⟨ep, _, hmk⟩
    have haval : a = { e := lt.2, b := lt.1.id, geom := [ep, bp] } := by
      simpa using hmk.symm
    rw [haval]
    rfl
  rw [hmapeq]
  exact hids.sublist ((zip_map_fst_sublist _ _).map _)

end NDW

namespace NDW

theorem groupKeys_nodup (arts : List Art) : (groupKeys arts).Nodup := by
  have hperm := List.perm_insertionSort (fun x y : ℕ => x ≤ y) (arts.map (·.e)).dedup
  exact hperm.nodup_iff.mpr (List.nodup_dedup _)

theorem rows_b_nodup {arts : List Art} (hart : (arts.map (·.b)).Nodup) :
    ∀ {keys : List ℕ} {rows : List Row},
      List.Forall₂ (fun k r => r.e = k ∧ ∃ c ∈ arts, c.e = k ∧ r.b = c.b) keys rows →
      keys.Nodup → (rows.map (·.b)).Nodup := by
  intro keys rows hf
  induction hf with
  | nil => intro _; simp
  | cons hx hxs ih =>
    intro hnd
    rw [List.map_cons, List.nodup_cons]
    refine ⟨?_, ih (List.nodup_cons.mp hnd).2⟩
    intro hmem
    rw [List.mem_map] at hmem
    obtain ⟨r', hr', hbeq⟩ := hmem
    obtain ⟨hre, c, hc, hce, hrb⟩ := hx
    obtain ⟨k', hk', hre', c', hc', hce', hrb'⟩ := forall₂_mem_right hxs hr'
    have hcc' : c = c' := by
      apply List.inj_on_of_nodup_map (f := fun x : Art => x.b) hart hc hc'
      rw [← hrb, ← hrb', hbeq]
    apply (List.nodup_cons.mp hnd).1
    rw [← hce, hcc', hce']
    exact hk'

theorem cosRows_struct {lines_no_end lines_no_begin : List Line} {arts : List Art}
    {rows : List Row} (h : cosRows lines_no_begin arts lines_no_end = some rows) :
    (∀ r ∈ rows, ∃ c ∈ arts, r.e = c.e ∧ r.b = c.b) ∧
    (rows.map (·.e)).Nodup ∧
    ((arts.map (·.b)).Nodup → (rows.map (·.b)).Nodup) := by
  rw [cosRows] at h
  have hinv : ∀ k r, ((selectGroup lines_no_end lines_no_begin (groupOf arts k)).map
      (fun cd => { e := cd.1.e, b := cd.1.b, angle := cd.2.1, angle_art := cd.2.2,
                   geom := cd.1.geom : Row })) = some r →
      r.e = k ∧ ∃ c ∈ arts, c.e = k ∧ r.b = c.b := by
    intro k r hk
    rcases Option.map_eq_some'.mp hk with ⟨cd, hsel, hrval⟩
    rcases cd with ⟨c, d, da⟩
    obtain ⟨hcm, -⟩ := selectGroup_mem hsel
    rw [groupOf, List.mem_filter] at hcm
    have hck : c.e = k := of_decide_eq_true hcm.2
    refine ⟨?_, c, hcm.1, hck, ?_⟩
    · rw [← hrval, hck]
    · rw [← hrval]
  refine ⟨?_, ?_, ?_⟩
  · intro r hr
    obtain ⟨k, _, hk⟩ := omap_mem h hr
    obtain ⟨hre, c, hc, hce, hrb⟩ := hinv k r hk
    exact ⟨c, hc, by rw [hre, hce], hrb⟩
  · have hmap : rows.map (·.e) = (groupKeys arts).map id := by
      apply forall₂_map_eq (omap_forall₂ h) id (·.e)
      intro k r hk
      exact (hinv k r hk).1
    rw [hmap, List.map_id]
    exact groupKeys_nodup arts
  · intro hart
    apply rows_b_nodup hart ((omap_forall₂ h).imp ?_) (groupKeys_nodup arts)
    intro k r hk
    exact hinv k r hk

theorem roundCompute_rows {lines_no_end lines_no_begin : List Line} {treshold : ℝ}
    {rows : List Row} (h : roundCompute lines_no_end lines_no_begin treshold = some rows) :
    (∀ r ∈ rows, (∃ l ∈ lines_no_end, r.e = l.id) ∧ (∃ l ∈ lines_no_begin, r.b = l.id)) ∧
    (rows.map (·.e)).Nodup ∧
    ((ids lines_no_begin).Nodup → (rows.map (·.b)).Nodup) := by
  rw [roundCompute] at h
  rcases Option.bind_eq_some.mp h with ⟨arts, hprep, hcos⟩
  rw [calculate_cos] at hcos
  rcases Option.map_eq_some'.mp hcos with ⟨rows₀, hrows₀, hfilter⟩
  obtain ⟨hmem₀, hen₀, hbn₀⟩ := cosRows_struct hrows₀
  have hsub : List.Sublist rows rows₀ := by
    rw [← hfilter]
    exact List.filter_sublist _
  refine ⟨?_, ?_, ?_⟩
  · intro r hr
    obtain ⟨c, hc, hre, hrb⟩ := hmem₀ r (hsub.subset hr)
    obtain ⟨⟨l1, hl1, he⟩, l2, hl2, hb⟩ := roundPrep_art_mem hprep c hc
    exact ⟨⟨l1, hl1, hre ▸ he⟩, ⟨l2, hl2, hrb ▸ hb⟩⟩
  · exact hen₀.sublist (hsub.map _)
  · intro hnb
    exact (hbn₀ (roundPrep_b_nodup hnb hprep)).sublist (hsub.map _)

end NDW

namespace NDW

/-! ### Loop termination (claim C3) -/

theorem loop_no_fuel (treshold : ℝ) :
    ∀ (fuel : ℕ) (lines_no_end lines_no_begin : List Line) (result : List Row),
      lines_no_begin.length < fuel →
      loop treshold fuel lines_no_end lines_no_begin result result.length ≠
        Except.error Err.fuel := by
  intro fuel
  induction fuel with
  | zero =>
    intro ne nb result h
    omega
  | succ n ih =>
    intro ne nb result hlt
    simp only [loop]
    cases hrc : roundCompute ne nb treshold with
    | none => simp
    | some filtered =>
      simp only
      by_cases hstop :
          ((result.length : ℤ) - ((result ++ filtered).length : ℤ)).natAbs < 5
      · rw [if_pos hstop]
        simp
      · rw [if_neg hstop]
        have hne_filtered : filtered ≠ [] := by
          intro hnil
          apply hstop
          rw [hnil, List.append_nil]
          simp
        obtain ⟨r, hr⟩ := List.exists_mem_of_ne_nil filtered hne_filtered
        obtain ⟨hmem, -, -⟩ := roundCompute_rows hrc
        obtain ⟨-, l, hl, hb⟩ := hmem r hr
        have hidmem : l.id ∈ filtered.map (·.b) := List.mem_map.mpr ⟨r, hr, hb⟩
        have hfalse : (decide (l.id ∉ filtered.map (·.b))) = false :=
          decide_eq_false (not_not_intro hidmem)
        have hlen : (nb.filter (fun l => decide (l.id ∉ filtered.map (·.b)))).length <
            nb.length := length_filter_lt _ hl hfalse
        exact ih _ _ _ (by omega)

/-- C3, amended.  Per round the loop runs search, synthesis and filtering,
appends the accepted connectors, removes the matched ids from both pools
and stops (DONE) exactly when `|previous - len(accumulated)| < 5`.  The
loop always halts after finitely many rounds (the fuel bound
`|no_predecessor| + 1` is never exhausted, because a continuing round
accepts at least 5 connectors and so removes at least one id from the
`no_predecessor` pool) — but not every well-formed input reaches DONE:
when the initial endpoint extraction fails the run aborts before any
round, and when a round's pools are too small for the k=3 neighbor query
(in particular, empty) the run aborts with a fault instead of reaching
DONE. -/
theorem loop_halts (df : List Line) (treshold : ℝ) :
    (∃ res, main df treshold = Except.ok res) ∨
    main df treshold = Except.error Err.badInput ∨
    main df treshold = Except.error Err.fault := by
  rw [main]
  cases hg : get_lines df with
  | none => simp
  | some pools =>
    simp only
    have h := loop_no_fuel treshold (pools.2.length + 1) pools.1 pools.2 []
      (by omega)
    cases hres : loop treshold (pools.2.length + 1) pools.1 pools.2 [] 0 with
    | ok res => exact Or.inl ⟨res, rfl⟩
    | error e =>
      cases e with
      | badInput => exact Or.inr (Or.inl rfl)
      | fault => exact Or.inr (Or.inr rfl)
      | fuel =>
        exfalso
        exact h (by simpa using hres)

end NDW

namespace NDW

/-! ### Run-wide invariants (claim C4) -/

theorem loop_invariant (treshold : ℝ) (ne₀ nb₀ : List Line) :
    ∀ (fuel : ℕ) (ne nb : List Line) (acc : List Row) (previous : ℕ) (res : LoopResult),
      (∀ l ∈ ne, l ∈ ne₀) → (∀ l ∈ nb, l ∈ nb₀) →
      (ids ne).Nodup → (ids nb).Nodup →
      (acc.map (·.e)).Nodup → (acc.map (·.b)).Nodup →
      (∀ r ∈ acc, (∃ l ∈ ne₀, r.e = l.id) ∧ (∃ l ∈ nb₀, r.b = l.id)) →
      (∀ r ∈ acc, (∀ l ∈ ne, r.e ≠ l.id) ∧ (∀ l ∈ nb, r.b ≠ l.id)) →
      loop treshold fuel ne nb acc previous = Except.ok res →
      (res.connectors.map (·.e)).Nodup ∧ (res.connectors.map (·.b)).Nodup ∧
      (∀ r ∈ res.connectors, (∃ l ∈ ne₀, r.e = l.id) ∧ (∃ l ∈ nb₀, r.b = l.id)) ∧
      (∀ r ∈ res.connectors, (∀ l ∈ res.no_end, r.e ≠ l.id) ∧
        (∀ l ∈ res.no_begin, r.b ≠ l.id)) := by
  intro fuel
  induction fuel with
  | zero =>
    intro ne nb acc previous res _ _ _ _ _ _ _ _ h
    simp [loop] at h
  | succ n ih =>
    intro ne nb acc previous res hsubE hsubB hneN hnbN haccE haccB haccInit haccAbs hloop
    simp only [loop] at hloop
    cases hrc : roundCompute ne nb treshold with
    | none =>
      rw [hrc] at hloop
      simp at hloop
    | some filtered =>
      rw [hrc] at hloop
      simp only at hloop
      obtain ⟨hmem, hEnodup, hBnodup⟩ := roundCompute_rows hrc
      have filteredB : (filtered.map (·.b)).Nodup := hBnodup hnbN
      have hdisjE : List.Disjoint (acc.map (·.e)) (filtered.map (·.e)) := by
        intro x hx1 hx2
        obtain ⟨r, hr, hrx⟩ := List.mem_map.mp hx1
        obtain ⟨r', hr', hrx'⟩ := List.mem_map.mp hx2
        obtain ⟨⟨l, hl, he⟩, -⟩ := hmem r' hr'
        exact (haccAbs r hr).1 l hl (by rw [hrx, ← hrx', he])
      have hdisjB : List.Disjoint (acc.map (·.b)) (filtered.map (·.b)) := by
        intro x hx1 hx2
        obtain ⟨r, hr, hrx⟩ := List.mem_map.mp hx1
        obtain ⟨r', hr', hrx'⟩ := List.mem_map.mp hx2
        obtain ⟨-, l, hl, hb⟩ := hmem r' hr'
        exact (haccAbs r hr).2 l hl (by rw [hrx, ← hrx', hb])
      have hacc2E : ((acc ++ filtered).map (·.e)).Nodup := by
        rw [List.map_append]
        exact List.Nodup.append haccE hEnodup hdisjE
      have hacc2B : ((acc ++ filtered).map (·.b)).Nodup := by
        rw [List.map_append]
        exact List.Nodup.append haccB filteredB hdisjB
      have hacc2Init : ∀ r ∈ acc ++ filtered,
          (∃ l ∈ ne₀, r.e = l.id) ∧ (∃ l ∈ nb₀, r.b = l.id) := by
        intro r hr
        rcases List.mem_append.mp hr with hra | hrf
        · exact haccInit r hra
        · obtain ⟨⟨l1, hl1, he⟩, l2, hl2, hb⟩ := hmem r hrf
          exact ⟨⟨l1, hsubE l1 hl1, he⟩, ⟨l2, hsubB l2 hl2, hb⟩⟩
      have habs2 : ∀ r ∈ acc ++ filtered,
          (∀ l ∈ ne.filter (fun l => decide (l.id ∉ filtered.map (·.e))), r.e ≠ l.id) ∧
          (∀ l ∈ nb.filter (fun l => decide (l.id ∉ filtered.map (·.b))), r.b ≠ l.id) := by
        intro r hr
        rcases List.mem_append.mp hr with hra | hrf
        · exact ⟨fun l hl => (haccAbs r hra).1 l (List.mem_of_mem_filter hl),
                 fun l hl => (haccAbs r hra).2 l (List.mem_of_mem_filter hl)⟩
        · constructor
          · intro l hl heq
            have h1 := List.of_mem_filter hl
            have h2 : l.id ∉ filtered.map (·.e) := of_decide_eq_true h1
            exact h2 (List.mem_map.mpr ⟨r, hrf, heq⟩)
          · intro l hl heq
            have h1 := List.of_mem_filter hl
            have h2 : l.id ∉ filtered.map (·.b) := of_decide_eq_true h1
            exact h2 (List.mem_map.mpr ⟨r, hrf, heq⟩)
      by_cases hstop :
          ((previous : ℤ) - ((acc ++ filtered).length : ℤ)).natAbs < 5
      · rw [if_pos hstop] at hloop
        cases hloop
        exact ⟨hacc2E, hacc2B, hacc2Init, habs2⟩
      · rw [if_neg hstop] at hloop
        apply ih _ _ _ _ res ?_ ?_ ?_ ?_ hacc2E hacc2B hacc2Init habs2 hloop
        · intro l hl
          exact hsubE l (List.mem_of_mem_filter hl)
        · intro l hl
          exact hsubB l (List.mem_of_mem_filter hl)
        · exact hneN.sublist ((List.filter_sublist _).map _)
        · exact hnbN.sublist ((List.filter_sublist _).map _)

/-- C4.  For a run that terminates normally, under the input contract that
line ids are unique: every accepted connector's source id is the id of a
line that was in the `no_successor` pool at its acceptance round
(in particular of an initial `no_successor` line — pools only shrink) and
its destination id similarly comes from the `no_predecessor` pool; no id
is used as source of two accepted connectors, none as destination of two;
and every matched id is absent from the corresponding residual pool, hence
from all pools of later rounds. -/
theorem accepted_connector_invariants (df : List Line) (treshold : ℝ)
    (lines_no_end₀ lines_no_begin₀ : List Line) (res : LoopResult)
    (hids : (df.map (·.id)).Nodup)
    (hgl : get_lines df = some (lines_no_end₀, lines_no_begin₀))
    (hmain : main df treshold = Except.ok res) :
    (res.connectors.map (·.e)).Nodup ∧ (res.connectors.map (·.b)).Nodup ∧
    (∀ r ∈ res.connectors,
      (∃ l ∈ lines_no_end₀, r.e = l.id) ∧ (∃ l ∈ lines_no_begin₀, r.b = l.id)) ∧
    (∀ r ∈ res.connectors, (∀ l ∈ res.no_end, r.e ≠ l.id) ∧
      (∀ l ∈ res.no_begin, r.b ≠ l.id)) := by
  rw [main, hgl] at hmain
  simp only at hmain
  obtain ⟨hsubE, hsubB⟩ := get_lines_sublist hgl
  have hneN : (ids lines_no_end₀).Nodup := hids.sublist (hsubE.map _)
  have hnbN : (ids lines_no_begin₀).Nodup := hids.sublist (hsubB.map _)
  exact loop_invariant treshold lines_no_end₀ lines_no_begin₀ _ _ _ [] 0 res
    (fun l hl => hl) (fun l hl => hl) hneN hnbN (by simp) (by simp)
    (by simp) (by simp) hmain

end NDW

namespace NDW

/-! ### Full evaluation of the example run -/

def exA11 : Art := { e := 1, b := 1, geom := [((3:ℚ), (0:ℚ)), ((1:ℚ), (0:ℚ))] }

def exA12 : Art := { e := 1, b := 2, geom := [((3:ℚ), (0:ℚ)), ((4:ℚ), (0:ℚ))] }

def exA23 : Art := { e := 2, b := 3, geom := [((6:ℚ), (0:ℚ)), ((7:ℚ), (0:ℚ))] }

def exA34 : Art := { e := 3, b := 4, geom := [((9:ℚ), (0:ℚ)), ((10:ℚ), (0:ℚ))] }

theorem cd_exA11 : candDegrees ex4 ex4 exA11 = some (0, 180) := by
  have e13 : AngleBtw2Points ((1:ℚ), (0:ℚ)) ((3:ℚ), (0:ℚ)) = 0 :=
    angle_east rfl (by norm_num)
  have w31 : AngleBtw2Points ((3:ℚ), (0:ℚ)) ((1:ℚ), (0:ℚ)) = 180 :=
    angle_west rfl (by norm_num)
  unfold candDegrees ex4 exL1 exL2 exL3 exL4 exA11
  norm_num [List.find?, last2, first2, e13, w31]

theorem cd_exA12 : candDegrees ex4 ex4 exA12 = some (0, 0) := by
  have e13 : AngleBtw2Points ((1:ℚ), (0:ℚ)) ((3:ℚ), (0:ℚ)) = 0 :=
    angle_east rfl (by norm_num)
  have e46 : AngleBtw2Points ((4:ℚ), (0:ℚ)) ((6:ℚ), (0:ℚ)) = 0 :=
    angle_east rfl (by norm_num)
  have e34 : AngleBtw2Points ((3:ℚ), (0:ℚ)) ((4:ℚ), (0:ℚ)) = 0 :=
    angle_east rfl (by norm_num)
  unfold candDegrees ex4 exL1 exL2 exL3 exL4 exA12
  norm_num [List.find?, last2, first2, e13, e46, e34]

theorem cd_exA23 : candDegrees ex4 ex4 exA23 = some (0, 0) := by
  have e46 : AngleBtw2Points ((4:ℚ), (0:ℚ)) ((6:ℚ), (0:ℚ)) = 0 :=
    angle_east rfl (by norm_num)
  have e79 : AngleBtw2Points ((7:ℚ), (0:ℚ)) ((9:ℚ), (0:ℚ)) = 0 :=
    angle_east rfl (by norm_num)
  have e67 : AngleBtw2Points ((6:ℚ), (0:ℚ)) ((7:ℚ), (0:ℚ)) = 0 :=
    angle_east rfl (by norm_num)
  unfold candDegrees ex4 exL1 exL2 exL3 exL4 exA23
  norm_num [List.find?, last2, first2, e46, e79, e67]

theorem cd_exA34 : candDegrees ex4 ex4 exA34 = some (0, 0) := by
  have e79 : AngleBtw2Points ((7:ℚ), (0:ℚ)) ((9:ℚ), (0:ℚ)) = 0 :=
    angle_east rfl (by norm_num)
  have e1012 : AngleBtw2Points ((10:ℚ), (0:ℚ)) ((12:ℚ), (0:ℚ)) = 0 :=
    angle_east rfl (by norm_num)
  have e910 : AngleBtw2Points ((9:ℚ), (0:ℚ)) ((10:ℚ), (0:ℚ)) = 0 :=
    angle_east rfl (by norm_num)
  unfold candDegrees ex4 exL1 exL2 exL3 exL4 exA34
  norm_num [List.find?, last2, first2, e79, e1012, e910]

theorem sg_ex4_1 : selectGroup ex4 ex4 [exA11, exA12] = some (exA11, 0, 180) := by
  simp [selectGroup, omap, cd_exA11, cd_exA12, scanMin, lt_self_iff_false]

theorem sg_ex4_2 : selectGroup ex4 ex4 [exA23] = some (exA23, 0, 0) := by
  simp [selectGroup, omap, cd_exA23, scanMin]

theorem sg_ex4_3 : selectGroup ex4 ex4 [exA34] = some (exA34, 0, 0) := by
  simp [selectGroup, omap, cd_exA34, scanMin]

def exRow11 : Row := { e := 1, b := 1, angle := 0, angle_art := 180,
                       geom := [((3:ℚ), (0:ℚ)), ((1:ℚ), (0:ℚ))] }

def exRow23 : Row := { e := 2, b := 3, angle := 0, angle_art := 0,
                       geom := [((6:ℚ), (0:ℚ)), ((7:ℚ), (0:ℚ))] }

def exRow34 : Row := { e := 3, b := 4, angle := 0, angle_art := 0,
                       geom := [((9:ℚ), (0:ℚ)), ((10:ℚ), (0:ℚ))] }

theorem cosRows_ex4 : cosRows ex4 exArts ex4 = some [exRow11, exRow23, exRow34] := by
  have hk : groupKeys exArts = [1, 2, 3] := rfl
  have h1 : groupOf exArts 1 = [exA11, exA12] := rfl
  have h2 : groupOf exArts 2 = [exA23] := rfl
  have h3 : groupOf exArts 3 = [exA34] := rfl
  rw [cosRows, hk]
  simp [omap, h1, h2, h3, sg_ex4_1, sg_ex4_2, sg_ex4_3]
  exact ⟨rfl, rfl, rfl⟩

theorem calculate_cos_ex4 : calculate_cos ex4 exArts ex4 5 = some [exRow23, exRow34] := by
  rw [calculate_cos, cosRows_ex4]
  have h11 : decide (accept 5 exRow11) = false := decide_eq_false (by
    simp [accept, exRow11])
  have h23 : decide (accept 5 exRow23) = true := decide_eq_true
    ⟨by norm_num [exRow23], by decide, by norm_num [exRow23]⟩
  have h34 : decide (accept 5 exRow34) = true := decide_eq_true
    ⟨by norm_num [exRow34], by decide, by norm_num [exRow34]⟩
  simp [List.filter, h11, h23, h34]

theorem roundCompute_ex4 : roundCompute ex4 ex4 5 = some [exRow23, exRow34] := by
  have step : roundCompute ex4 ex4 5 = calculate_cos ex4 exArts ex4 5 := by
    unfold roundCompute
    rw [roundPrep_ex4]
    rfl
  rw [step, calculate_cos_ex4]

/-- The example run's result: two accepted connectors, lines 1 and 4 left
in the `no_successor` pool, lines 1 and 2 left in the `no_predecessor`
pool. -/
def exRes : LoopResult :=
  { connectors := [exRow23, exRow34], no_end := [exL1, exL4], no_begin := [exL1, exL2] }

theorem main_ex4 : main ex4 5 = Except.ok exRes := by
  have hloop : loop 5 (4 + 1) ex4 ex4 [] 0 = Except.ok exRes := by
    simp only [loop]
    rw [roundCompute_ex4]
    rfl
  show loop 5 (4 + 1) ex4 ex4 [] 0 = Except.ok exRes
  exact hloop

/-- C4 witness: for the concrete run, source/destination ids are all
distinct, come from the pools, and are absent from the residual pools. -/
theorem accepted_connector_invariants_check :
    (exRes.connectors.map (·.e)).Nodup ∧ (exRes.connectors.map (·.b)).Nodup ∧
    (∀ r ∈ exRes.connectors, (∃ l ∈ ex4, r.e = l.id) ∧ (∃ l ∈ ex4, r.b = l.id)) ∧
    (∀ r ∈ exRes.connectors, (∀ l ∈ exRes.no_end, r.e ≠ l.id) ∧
      (∀ l ∈ exRes.no_begin, r.b ≠ l.id)) :=
  accepted_connector_invariants ex4 5 ex4 ex4 exRes (by decide) get_lines_ex4 main_ex4

end NDW
